import Mathlib

/-!
Verification development for the cmdparse command-grammar engine.

The development shallowly embeds the Go sources:
  * the grammar lexer (`scanner`), recursive-descent parser (`parser`),
  * the compiler (`compiler.countinstr`, `compiler.emit`, `compiler.compile`),
  * the Thompson-style matching VM (`vm.execute`, `vm.addThread`,
    `vm.processWord`, `vm.continu`, `vm.doCmp`, ..., `vm.longestMatches`,
    `vm.maximalMatches`),
  * the user-input scanner (`cmdScanner.innerTokenize`) and the dispatcher
    (`Cmds.Parse`, `Cmds.Add`).

Go interface-nil values are modelled by explicit constructors or `Option`;
Go panics are modelled by an explicit error result; loops whose bound is not
structural are modelled with an explicit fuel parameter, with fuel
exhaustion distinguished from panics.  Meta payloads (Go `interface{}`
holding a callback) are modelled by opaque `Nat` identifiers.
-/

namespace Cmdparse

/-- Result of running a piece of Go code that can panic, under a fuel bound:
`ok` is normal completion, `panic` models a Go runtime panic, `fuelOut`
means the fuel bound was reached before the code finished. -/
inductive Res (α : Type) where
  | ok (a : α)
  | panic (msg : String)
  | fuelOut
deriving DecidableEq, Repr

/-- VM opcodes, mirroring the Go `opcode` constants (opNop = zero value). -/
inductive Opcode where
  | opNop
  | opSplit
  | opJmp
  | opCmp
  | opSave
  | opMeta
  | opMatch
deriving DecidableEq, Repr

/-- One VM instruction, mirroring Go `instr`.  The Go fields `ints [2]int`
and `strs [2]string` are flattened to `ints0/ints1` and `strs0/strs1`;
`intf interface{}` (the meta payload) is an `Option Nat` (`none` = Go nil).
The defaults are the Go zero value. -/
structure Instr where
  opcode : Opcode := .opNop
  ints0 : Nat := 0
  ints1 : Nat := 0
  strs0 : String := ""
  strs1 : String := ""
  intf : Option Nat := none
  gen : Nat := 0
deriving DecidableEq, Repr

instance : Inhabited Instr := ⟨{}⟩

/-- Repetition operators (Go `repOp`; `unset` is the zero value). -/
inductive RepOp where
  | unset
  | zeroOrMore
  | oneOrMore
  | zeroOrOne
deriving DecidableEq, Repr

/-- Parse-tree nodes.  The Go tree is an `interface{}` that can be nil or
hold `alts`, `terms`, `rep`, `word`, `variable` or `meta` values; `nil`
models the Go nil interface (also as a child).  The meta payload
(`meta.data`, a callback) is an opaque `Nat`. -/
inductive PTree where
  | nil
  | word (s : String)
  | variab (name typ : String)
  | alts (l r : PTree)
  | terms (l r : PTree)
  | rep (op : RepOp) (t : PTree)
  | meta (d : Nat) (ch : PTree)
deriving DecidableEq, Repr

/-- `compiler.countinstr`: instruction count of a node.  `none` models the
panic of the `default` branch (unknown node type, in particular a nil
child).  A `rep` with unset op falls through the inner switch and returns 0,
exactly as in the Go code. -/
def countinstr : PTree → Option Nat
  | .alts l r => do pure (2 + (← countinstr l) + (← countinstr r))
  | .word _ => some 1
  | .variab _ _ => some 1
  | .rep op t =>
    match op with
    | .zeroOrMore => do pure (2 + (← countinstr t))
    | .oneOrMore => do pure ((← countinstr t) + 1)
    | .zeroOrOne => do pure (1 + (← countinstr t))
    | .unset => some 0
  | .terms l r => do pure ((← countinstr l) + (← countinstr r))
  | .meta _ ch => do pure (1 + (← countinstr ch))
  | .nil => none

/-- Compiler state: the pre-allocated instruction array and the write
cursor `pc` (Go `compiler`). -/
structure CompSt where
  instr : Array Instr
  pc : Nat
deriving DecidableEq, Repr

/-- Write through `f` at index `i`; `none` models the Go panic on an
out-of-range slice index. -/
def setAt (a : Array Instr) (i : Nat) (f : Instr → Instr) : Option (Array Instr) :=
  if h : i < a.size then some (a.set ⟨i, h⟩ (f (a.get ⟨i, h⟩))) else none

/-- `compiler.emit`: emit code for a node at the current cursor, with the
back-patching of split/jmp targets done through the recorded indices (the
Go code holds pointers into the array instead).  `none` models the panics
(unknown node type / out-of-range write).  The bodies of the Go helpers
`emitAlts`, `emitWord`, `emitVar`, `emitTerms`, `emitRep` (with
`emitZeroOrMore`, `emitOneOrMore`, `emitZeroOrOne`) and `emitMeta` are
inlined at their call sites. -/
def emit : PTree → CompSt → Option CompSt
  | .alts l r, c => do
    -- emitAlts
    let splitNdx := c.pc
    let a1 ← setAt c.instr splitNdx (fun i => { i with opcode := .opSplit, ints0 := c.pc + 1 })
    let c1 ← emit l ⟨a1, c.pc + 1⟩
    let jmpNdx := c1.pc
    let a2 ← setAt c1.instr jmpNdx (fun i => { i with opcode := .opJmp })
    let a3 ← setAt a2 splitNdx (fun i => { i with ints1 := c1.pc + 1 })
    let c3 ← emit r ⟨a3, c1.pc + 1⟩
    let a4 ← setAt c3.instr jmpNdx (fun i => { i with ints0 := c3.pc })
    some ⟨a4, c3.pc⟩
  | .word w, c => do
    -- emitWord
    let a ← setAt c.instr c.pc (fun i => { i with opcode := .opCmp, strs0 := w })
    some ⟨a, c.pc + 1⟩
  | .variab n t, c => do
    -- emitVar
    let a ← setAt c.instr c.pc (fun i => { i with opcode := .opSave, strs0 := n, strs1 := t })
    some ⟨a, c.pc + 1⟩
  | .terms l r, c => do
    -- emitTerms
    let c1 ← emit l c
    emit r c1
  | .rep op t, c =>
    -- emitRep
    match op with
    | .zeroOrMore => do
      -- emitZeroOrMore
      let splitNdx := c.pc
      let a1 ← setAt c.instr splitNdx (fun i => { i with opcode := .opSplit, ints0 := c.pc + 1 })
      let c1 ← emit t ⟨a1, c.pc + 1⟩
      let a2 ← setAt c1.instr c1.pc (fun i => { i with opcode := .opJmp, ints0 := splitNdx })
      let a3 ← setAt a2 splitNdx (fun i => { i with ints1 := c1.pc + 1 })
      some ⟨a3, c1.pc + 1⟩
    | .oneOrMore => do
      -- emitOneOrMore
      let splitDst1 := c.pc
      let c1 ← emit t c
      let a ← setAt c1.instr c1.pc
        (fun i => { i with opcode := .opSplit, ints0 := splitDst1, ints1 := c1.pc + 1 })
      some ⟨a, c1.pc + 1⟩
    | .zeroOrOne => do
      -- emitZeroOrOne
      let splitNdx := c.pc
      let a1 ← setAt c.instr splitNdx (fun i => { i with opcode := .opSplit, ints0 := c.pc + 1 })
      let c1 ← emit t ⟨a1, c.pc + 1⟩
      let a2 ← setAt c1.instr splitNdx (fun i => { i with ints1 := c1.pc })
      some ⟨a2, c1.pc⟩
    | .unset => some c
  | .meta d ch, c => do
    -- emitMeta
    let a ← setAt c.instr c.pc (fun i => { i with opcode := .opMeta, intf := some d })
    emit ch ⟨a, c.pc + 1⟩
  | .nil, _ => none

/-- `compiler.emitMatch`: append the trailing MATCH at the cursor. -/
def emitMatch (c : CompSt) : Option CompSt := do
  let a ← setAt c.instr c.pc (fun i => { i with opcode := .opMatch })
  some ⟨a, c.pc + 1⟩

/-- `compiler.compile`: a nil tree emits no code (the program stays empty);
otherwise allocate `countinstr + 1` zero-value instructions, emit the tree
and the trailing MATCH. -/
def compile (t : PTree) : Option (Array Instr) :=
  if t = .nil then some #[]
  else do
    let n ← countinstr t
    let c1 ← emit t ⟨Array.mkArray (n + 1) {}, 0⟩
    let c2 ← emitMatch c1
    some c2.instr

/-- Sequencing of possibly-failing steps (panic and fuel exhaustion
propagate). -/
def Res.andThen {α β : Type} (r : Res α) (f : α → Res β) : Res β :=
  match r with
  | .ok a => f a
  | .panic m => .panic m
  | .fuelOut => .fuelOut

/-- Go `strings.HasPrefix(s, p)`: does `s` start with `p`? -/
def goStartsWith (s p : String) : Bool :=
  p.data.isPrefixOf s.data

/-- A binding (Go `binding`): the CMP/SAVE instruction that consumed a word
(the Go code stores a pointer into the immutable program; we store the
instruction value) together with the consumed word (Go stores a pointer to
the input word). -/
structure Binding where
  instr : Instr
  val : String
deriving DecidableEq, Repr

/-- A VM thread (Go `thread`).  `clone` deep-copies `items`, so threads are
plain values here. -/
structure Thread where
  pc : Nat
  items : List Binding := []
  meta : Option Nat := none
deriving DecidableEq, Repr

/-- A finalized match item: Go `keywordValue` or `VarValue`. -/
inductive MItem where
  | keywordValue (name value : String)
  | varValue (name typ value : String)
deriving DecidableEq, Repr

/-- A recorded match (Go `match`). -/
structure MMatch where
  items : List MItem := []
  meta : Option Nat := none
deriving DecidableEq, Repr

instance : Inhabited MMatch := ⟨{}⟩

/-- The VM state (Go `vm`).  `current`/`next` are the two thread lists;
`gen` is the generation counter.  The program is part of the state because
`addThread` reads the per-instruction `gen` scratch field.  The trace
writer is always nil in this model, so `wordIndex` (used only by the trace
output) is omitted. -/
structure VmState where
  prog : Array Instr
  input : List String
  current : List Thread
  next : List Thread
  matches' : List MMatch
  gen : Nat
deriving DecidableEq, Repr

instance : Inhabited VmState := ⟨⟨#[], [], [], [], [], 0⟩⟩

/-- `vm.addThread(l, t)`: a silent no-op on an empty program; otherwise
looks at `program[t.pc].gen` (panicking if `t.pc` is out of range) and
appends `t` unless that generation equals the VM's current one.  Note that
the Go code never writes the `gen` field. -/
def addThread (v : VmState) (l : List Thread) (t : Thread) : Res (List Thread) :=
  if v.prog.size = 0 then Res.ok l
  else
    match v.prog[t.pc]? with
    | none => Res.panic "index out of range"
    | some i => if i.gen = v.gen then Res.ok l else Res.ok (l ++ [t])

/-- `vm.doJmp`: retarget the thread and re-add it to the current list. -/
def doJmp (v : VmState) (t : Thread) (i : Instr) : Res VmState :=
  Res.andThen (addThread v v.current { t with pc := i.ints0 }) fun cur =>
    Res.ok { v with current := cur }

/-- `vm.doSplit`: clone the thread; the original goes to `ints0`, the clone
to `ints1`; both are added to the current list (original first). -/
def doSplit (v : VmState) (t : Thread) (i : Instr) : Res VmState :=
  let t2 : Thread := { t with pc := i.ints1 }
  Res.andThen (addThread v v.current { t with pc := i.ints0 }) fun cur =>
    Res.andThen (addThread v cur t2) fun cur2 =>
      Res.ok { v with current := cur2 }

/-- `vm.doCmp`: if the word is non-nil and the keyword `strs0` has the word
as a prefix, bind the word, advance the pc and add the thread to the next
list; otherwise the thread dies. -/
def doCmp (v : VmState) (t : Thread) (i : Instr) (word : Option String) : Res VmState :=
  match word with
  | some w =>
    if goStartsWith i.strs0 w then
      Res.andThen (addThread v v.next { t with items := t.items ++ [⟨i, w⟩], pc := t.pc + 1 })
        fun nx => Res.ok { v with next := nx }
    else Res.ok v
  | none => Res.ok v

/-- `vm.doSave`: if the word is non-nil, bind it, advance the pc and add
the thread to the next list. -/
def doSave (v : VmState) (t : Thread) (i : Instr) (word : Option String) : Res VmState :=
  match word with
  | some w =>
    Res.andThen (addThread v v.next { t with items := t.items ++ [⟨i, w⟩], pc := t.pc + 1 })
      fun nx => Res.ok { v with next := nx }
  | none => Res.ok v

/-- `vm.doMeta`: install the instruction's payload as the thread's meta and
re-add the thread to the current list. -/
def doMeta (v : VmState) (t : Thread) (i : Instr) : Res VmState :=
  Res.andThen (addThread v v.current { t with meta := i.intf, pc := t.pc + 1 }) fun cur =>
    Res.ok { v with current := cur }

/-- Finalization of a thread's bindings in order (the loop body of
`vm.addMatch`); a binding whose instruction is neither CMP nor SAVE panics. -/
def matchItems : List Binding → Res (List MItem)
  | [] => Res.ok []
  | b :: rest =>
    match b.instr.opcode with
    | .opCmp =>
      Res.andThen (matchItems rest) fun l =>
        Res.ok (MItem.keywordValue b.instr.strs0 b.val :: l)
    | .opSave =>
      Res.andThen (matchItems rest) fun l =>
        Res.ok (MItem.varValue b.instr.strs0 b.instr.strs1 b.val :: l)
    | _ => Res.panic "Unsupported opcode in thread bindings"

/-- `vm.addMatch`: finalize the thread's bindings and append the match. -/
def addMatch (v : VmState) (t : Thread) : Res VmState :=
  Res.andThen (matchItems t.items) fun its =>
    Res.ok { v with matches' := v.matches' ++ [⟨its, t.meta⟩] }

/-- `vm.continu`: dispatch on the current instruction (fetching
`prog[t.pc]` panics when out of range, as in Go).  The opcode type is a
closed enumeration here, so the Go `default: panic` branch has no
counterpart. -/
def continu (v : VmState) (word : Option String) (t : Thread) : Res VmState :=
  match v.prog[t.pc]? with
  | none => Res.panic "index out of range"
  | some i =>
    match i.opcode with
    | .opNop => Res.ok v
    | .opJmp => doJmp v t i
    | .opMatch => addMatch v t
    | .opSplit => doSplit v t i
    | .opCmp => doCmp v t i word
    | .opSave => doSave v t i word
    | .opMeta => doMeta v t i

/-- The index-based loop inside `vm.processWord`: newly appended threads
are picked up because the loop re-reads the list at each index.  The fuel
bounds the number of iterations; the Go loop has no such bound. -/
def runThreadsFuel : Nat → VmState → Option String → Nat → Res VmState
  | 0, _, _, _ => Res.fuelOut
  | fuel + 1, v, word, i =>
    match v.current[i]? with
    | none => Res.ok v
    | some t => Res.andThen (continu v word t) fun v2 => runThreadsFuel fuel v2 word (i + 1)

/-- `vm.processWord`: bump the generation, run all current threads, then
swap the lists and clear the new next list. -/
def processWordFuel (fuel : Nat) (v : VmState) (word : Option String) : Res VmState :=
  Res.andThen (runThreadsFuel fuel { v with gen := v.gen + 1 } word 0) fun v2 =>
    Res.ok { v2 with current := v2.next, next := [] }

/-- The per-input-word loop of `vm.execute`. -/
def processWordsFuel (fuel : Nat) (v : VmState) : List String → Res VmState
  | [] => Res.ok v
  | w :: ws => Res.andThen (processWordFuel fuel v (some w)) fun v2 =>
      processWordsFuel fuel v2 ws

/-- `vm.execute`: start at generation 1 with a single pc-0 thread, process
every input word, then one nil-word pass, then `finishThreads` (a second
nil-word pass). -/
def executeFuel (fuel : Nat) (p : Array Instr) (input : List String) : Res VmState :=
  let v0 : VmState := ⟨p, input, [], [], [], 1⟩
  Res.andThen (addThread v0 v0.current ⟨0, [], none⟩) fun cur =>
    Res.andThen (processWordsFuel fuel { v0 with current := cur } input) fun v1 =>
      Res.andThen (processWordFuel fuel v1 none) fun v2 =>
        processWordFuel fuel v2 none

/-- Running maximum of binding-item counts starting from `m`. -/
def maxFrom (m : Nat) (ms : List MMatch) : Nat :=
  ms.foldl (fun a x => max a x.items.length) m

/-- The largest number of binding items over the recorded matches (0 when
there are none); this is the specification-side description of the `mlen`
value computed by `vm.longestMatches`. -/
def maxLen (ms : List MMatch) : Nat :=
  maxFrom 0 ms

/-- The body of the first loop of `vm.longestMatches`. -/
def longestStep (cm : Nat × Nat) (m : MMatch) : Nat × Nat :=
  if m.items.length > cm.2 then (1, m.items.length)
  else if m.items.length = cm.2 then (cm.1 + 1, cm.2) else cm

/-- The first loop of `vm.longestMatches`: computes `(count, mlen)`. -/
def longestCount (ms : List MMatch) : Nat × Nat :=
  ms.foldl longestStep (0, 0)

/-- The body of the second loop of `vm.longestMatches`: copy a match when
its item count equals `mlen`. -/
def longestFill (mlen : Nat) (acc : List MMatch) (m : MMatch) : List MMatch :=
  if m.items.length = mlen then acc ++ [m] else acc

/-- `vm.longestMatches`: the second loop copies, in order, every match
whose item count equals `mlen` into an array pre-allocated with `count`
slots; it is modelled as an in-order accumulation (the theorem
`longestCount_fst` below certifies that exactly `count` matches are
copied, so no slot is left over and no write is out of range). -/
def longestMatches (v : VmState) : List MMatch :=
  let mlen := (longestCount v.matches').2
  v.matches'.foldl (longestFill mlen) []

/-- `vm.maximalMatches`: return the longest matches unless the first of
them (all tie in length) consumed fewer or more words than the input had. -/
def maximalMatches (v : VmState) : List MMatch :=
  match longestMatches v with
  | [] => []
  | m0 :: rest => if m0.items.length ≠ v.input.length then [] else m0 :: rest

/-- The Latin-1 portion of Go `unicode.IsSpace` (the inputs in this
development are ASCII; code points in the Unicode Zs category above U+00A0
are not modelled). -/
def goIsSpace (c : Char) : Bool :=
  c = ' ' || c = '\t' || c = '\n' || c = Char.ofNat 11 || c = Char.ofNat 12 ||
    c = '\r' || c = Char.ofNat 0x85 || c = Char.ofNat 0xA0

/-- State-machine modes of `cmdScanner.innerTokenize`. -/
inductive CmdScanMode where
  | dflt
  | inWord
  | waitingForTerminator
deriving DecidableEq, Repr

/-- State of the user-input scanner: mode, terminator rune, word buffer and
accumulated words. -/
structure CmdScanSt where
  mode : CmdScanMode
  terminator : Char
  word : String
  words : List String
deriving DecidableEq, Repr

/-- One rune step of `cmdScanner.innerTokenize`. -/
def cmdScanStep (st : CmdScanSt) (r : Char) : CmdScanSt :=
  match st.mode with
  | .dflt =>
    if !goIsSpace r then
      if r = '"' then { st with mode := .waitingForTerminator, terminator := '"' }
      else { st with word := st.word.push r, mode := .inWord }
    else st
  | .inWord =>
    if goIsSpace r then { st with words := st.words ++ [st.word], word := "", mode := .dflt }
    else { st with word := st.word.push r }
  | .waitingForTerminator =>
    if r = st.terminator then { st with words := st.words ++ [st.word], word := "", mode := .dflt }
    else { st with word := st.word.push r }

/-- `cmdScanner.Scan`: run the state machine over the runes of the command
and flush a non-empty final buffer. -/
def cmdScanWords (cmd : String) : List String :=
  let st := cmd.data.foldl cmdScanStep ⟨.dflt, Char.ofNat 0, "", []⟩
  if st.word ≠ "" then st.words ++ [st.word] else st.words

/-- `Cmds.Parse`: scan the user input, execute the VM, and invoke the
single maximal match's meta payload as the callback.  The boolean is the
return value; the list records the callback invocations (payload and the
match passed to it).  A nil meta payload would make the Go type assertion
`mm.meta.(Callback)` panic. -/
def parseFuel (fuel : Nat) (p : Array Instr) (cmd : String) : Res (Bool × List (Nat × MMatch)) :=
  let toks := cmdScanWords cmd
  Res.andThen (executeFuel fuel p toks) fun st =>
    if (maximalMatches st).length ≠ 1 then Res.ok (false, [])
    else
      match maximalMatches st with
      | [] => Res.panic "index out of range"
      | mm :: _ =>
        match mm.meta with
        | some cb => Res.ok (true, [(cb, mm)])
        | none => Res.panic "interface conversion"

/-- Token kinds of the grammar DSL lexer (Go `tokenType`; `nilTok` is the
zero value). -/
inductive TokenType where
  | nilTok
  | lessThanTok
  | greaterThanTok
  | pipeTok
  | starTok
  | plusTok
  | questionTok
  | leftParenTok
  | rightParenTok
  | colonTok
  | wordTok
deriving DecidableEq, Repr

/-- A grammar token (Go `token`): kind, string payload (words only) and the
rune offset at which the token started. -/
structure Token where
  typ : TokenType := .nilTok
  value : String := ""
  pos : Nat := 0
deriving DecidableEq, Repr

instance : Inhabited Token := ⟨{}⟩

/-- Go `token.len()`: the byte length of a word's value, 1 for punctuation
(the Go code applies `len` to the value string, which counts bytes). -/
def Token.len (t : Token) : Nat :=
  if t.typ = .wordTok then t.value.utf8ByteSize else 1

/-- The ASCII portion of Go `unicode.IsLetter || unicode.IsDigit` plus the
two word punctuation runes (`scanner.isValidWordRune`); non-ASCII letters
and digits are not modelled. -/
def isValidWordRune (r : Char) : Bool :=
  r.isAlpha || r.isDigit || r = '_' || r = '-'

/-- The reading loop of `scanner.word` once the first rune was accepted:
push runes while they are valid word runes.  Returns the buffer and the new
position. -/
def scanWordLoop : Nat → List Char → Nat → String → String × Nat
  | 0, _, pos, buf => (buf, pos)
  | fuel + 1, input, pos, buf =>
    let buf := buf.push (input.getD pos ' ')
    let pos := pos + 1
    match input[pos]? with
    | none => (buf, pos)
    | some r => if isValidWordRune r then scanWordLoop fuel input pos buf else (buf, pos)

/-- `scanner.word`: an invalid first rune is consumed and reported;
otherwise read a maximal word.  Returns the token, an optional error and
the new position. -/
def scanWord (fuel : Nat) (input : List Char) (pos : Nat) : Token × Option String × Nat :=
  let r := input.getD pos ' '
  if !isValidWordRune r then
    ({}, some ("Invalid character " ++ String.singleton (Char.ofNat 39) ++ String.singleton r
      ++ String.singleton (Char.ofNat 39) ++ " encountered"), pos + 1)
  else
    let (buf, pos2) := scanWordLoop fuel input pos ""
    ({ typ := .wordTok, value := buf }, none, pos2)

/-- The whitespace-skipping loop at the start of `scanner.next`; `none`
models `io.EOF`. -/
def skipSpaces : Nat → List Char → Nat → Option Nat
  | 0, _, pos => some pos
  | fuel + 1, input, pos =>
    match input[pos]? with
    | none => none
    | some r => if goIsSpace r then skipSpaces fuel input (pos + 1) else some pos

/-- `scanner.next`: skip whitespace, then lex one punctuation token or a
word; `none` models `io.EOF`. -/
def nextTok (fuel : Nat) (input : List Char) (pos : Nat) :
    Option (Token × Option String × Nat) :=
  match skipSpaces fuel input pos with
  | none => none
  | some p =>
    let r := input.getD p ' '
    if r = '<' then some ({ typ := .lessThanTok, pos := p }, none, p + 1)
    else if r = '>' then some ({ typ := .greaterThanTok, pos := p }, none, p + 1)
    else if r = '|' then some ({ typ := .pipeTok, pos := p }, none, p + 1)
    else if r = '*' then some ({ typ := .starTok, pos := p }, none, p + 1)
    else if r = '+' then some ({ typ := .plusTok, pos := p }, none, p + 1)
    else if r = '?' then some ({ typ := .questionTok, pos := p }, none, p + 1)
    else if r = '(' then some ({ typ := .leftParenTok, pos := p }, none, p + 1)
    else if r = ')' then some ({ typ := .rightParenTok, pos := p }, none, p + 1)
    else if r = ':' then some ({ typ := .colonTok, pos := p }, none, p + 1)
    else
      match scanWord fuel input p with
      | (_, some e, p2) => some ({}, some e, p2)
      | (t, none, p2) => some ({ t with pos := p }, none, p2)

/-- The loop of `scanner.Scan`: collect tokens until EOF; on an error the
error is recorded and the (nil) token is still appended, as in the Go
code. -/
def scanLoop : Nat → List Char → Nat → List Token → List String → List Token × List String
  | 0, _, _, toks, errs => (toks, errs)
  | fuel + 1, input, pos, toks, errs =>
    match nextTok fuel input pos with
    | none => (toks, errs)
    | some (t, oe, pos2) =>
      let errs := match oe with
        | some e => errs ++ [e]
        | none => errs
      scanLoop fuel input pos2 (toks ++ [t]) errs

/-- `scanner.Scan`: tokens plus the error list (`ok` in Go is the error
list being empty). -/
def Scan (cmd : String) : List Token × List String :=
  scanLoop (2 * cmd.data.length + 2) cmd.data 0 [] []

/-- Parser state (Go `parser`): the token list, the cursor and the
accumulated diagnostics.  The debugging fields `matchLimit`/`matchCalls`
are zero in every library call path and are omitted. -/
structure PState where
  tokens : List Token
  current : Nat
  errors : List String
deriving DecidableEq, Repr

/-- `parser.atEnd`. -/
def pAtEnd (st : PState) : Bool := st.current ≥ st.tokens.length

/-- `parser.peek` (only ever called when not at end). -/
def pPeek (st : PState) : Token := st.tokens.getD st.current {}

/-- `parser.previous` (only ever called with `current ≥ 1`). -/
def pPrevious (st : PState) : Token := st.tokens.getD (st.current - 1) {}

/-- `parser.check`. -/
def pCheck (st : PState) (typ : TokenType) : Bool :=
  if pAtEnd st then false else (pPeek st).typ = typ

/-- `parser.advance`. -/
def pAdvance (st : PState) : PState :=
  if pAtEnd st then st else { st with current := st.current + 1 }

/-- `parser.match`: advance past the current token if its type is among
`types`. -/
def pMatch (st : PState) (types : List TokenType) : PState × Bool :=
  if types.any (fun t => pCheck st t) then (pAdvance st, true) else (st, false)

/-- `parser.runePosition`: 1 when no token has been consumed, otherwise the
previous token's start offset plus its length. -/
def runePosition (st : PState) : Nat :=
  if st.current = 0 then 1 else (pPrevious st).pos + (pPrevious st).len

/-- `parser.addErrorAtPosition`: record a diagnostic prefixed with
`At character K:` where `K = runePosition + 1`. -/
def addErrorAtPosition (st : PState) (msg : String) : PState :=
  { st with errors := st.errors ++
      ["At character " ++ toString (runePosition st + 1) ++ ": " ++ msg] }

/-- `parser.Word`. -/
def pWord (st : PState) : PState × PTree :=
  match pMatch st [.wordTok] with
  | (st1, true) => (st1, .word (pPrevious st1).value)
  | (st1, false) => (st1, .nil)

/-- `parser.Var`: `'<' WORD (':' WORD)? '>'` with the diagnostics of the Go
code. -/
def pVar (st0 : PState) : PState × PTree :=
  let (st1, m) := pMatch st0 [.lessThanTok]
  if !m then (st1, .nil)
  else
    match pWord st1 with
    | (st2, .word nm) =>
      let (st3, hasColon) := pMatch st2 [.colonTok]
      let tr : PState × Option String :=
        if hasColon then
          match pWord st3 with
          | (st4, .word t) => (st4, some t)
          | (st4, _) => (addErrorAtPosition st4 "expected variable type after :", none)
        else (st3, some "str")
      match tr with
      | (st5, none) => (st5, .nil)
      | (st5, some typ) =>
        let (st6, mg) := pMatch st5 [.greaterThanTok]
        if !mg then
          if hasColon then
            (addErrorAtPosition st6 "expected > to complete variable definition", .nil)
          else
            (addErrorAtPosition st6
              "expected either : to specify variable type, or > to complete variable definition",
              .nil)
        else (st6, .variab nm typ)
    | (st2, _) => (addErrorAtPosition st2 "expected variable name after <", .nil)

/-- `parser.Term`: a variable or a word. -/
def pTerm (st : PState) : PState × PTree :=
  match pVar st with
  | (st1, .nil) => pWord st1
  | (st1, r) => (st1, r)

mutual

/-- `parser.Alternatives`: `terms ('|' alternatives)?`. -/
def pAlternatives : Nat → PState → PState × PTree
  | 0, st => (st, .nil)
  | fuel + 1, st =>
    let (st1, l) := pTerms fuel st
    let (st2, piped) := pMatch st1 [.pipeTok]
    if piped then
      match pAlternatives fuel st2 with
      | (st3, .nil) => (addErrorAtPosition st3 "expected more tokens after the |", l)
      | (st3, r) => (st3, .alts l r)
    else (st2, l)

/-- `parser.Terms`: `repetition terms?`. -/
def pTerms : Nat → PState → PState × PTree
  | 0, st => (st, .nil)
  | fuel + 1, st =>
    match pRepetition fuel st with
    | (st1, .nil) => (st1, .nil)
    | (st1, l) =>
      if pAtEnd st1 then (st1, l)
      else
        match pTerms fuel st1 with
        | (st2, .nil) => (st2, l)
        | (st2, r) => (st2, .terms l r)

/-- `parser.Repetition`: `group ('*' | '+' | '?')?`. -/
def pRepetition : Nat → PState → PState × PTree
  | 0, st => (st, .nil)
  | fuel + 1, st =>
    match pGroup fuel st with
    | (st1, .nil) => (st1, .nil)
    | (st1, t) =>
      let (st2, m) := pMatch st1 [.starTok, .plusTok, .questionTok]
      if m then
        let op := match (pPrevious st2).typ with
          | .starTok => RepOp.zeroOrMore
          | .plusTok => RepOp.oneOrMore
          | .questionTok => RepOp.zeroOrOne
          | _ => RepOp.unset
        (st2, .rep op t)
      else (st2, t)

/-- `parser.Group`: a parenthesized alternatives or a plain term. -/
def pGroup : Nat → PState → PState × PTree
  | 0, st => (st, .nil)
  | fuel + 1, st =>
    let (st1, m) := pMatch st [.leftParenTok]
    if m then
      let (st2, res) := pAlternatives fuel st1
      let (st3, mr) := pMatch st2 [.rightParenTok]
      if mr then (st3, res)
      else (addErrorAtPosition st3 "expected ) to close the group", res)
    else pTerm st1

end

/-- `parser.parse` on a token list: run `Command` (= `Alternatives`), then
report any unconsumed tokens.  The fuel is large enough for every input
(each level of the production chain either consumes a token or moves to a
strictly smaller production). -/
def pParse (tokens : List Token) : PState × PTree :=
  let st0 : PState := ⟨tokens, 0, []⟩
  let (st1, tree) := pAlternatives (4 * tokens.length + 8) st0
  if pAtEnd st1 then (st1, tree)
  else (addErrorAtPosition st1 "extra tokens after end of command", tree)

/-- `Cmds.scanAndParse`: scan errors or parse errors abort registration
(`Errors.nilIfEmpty`); otherwise the (possibly nil) tree is returned. -/
def scanAndParse (cmd : String) : Except (List String) PTree :=
  let (toks, errs) := Scan cmd
  if errs ≠ [] then Except.error errs
  else
    let (st, tree) := pParse toks
    if st.errors ≠ [] then Except.error st.errors else Except.ok tree

/-- `Cmds.addParseTree`: wrap the new tree in a `meta` node carrying the
callback and graft it as the left branch of a top-level alternative (or as
the whole tree when the library was empty). -/
def addParseTree (pt : PTree) (tree : PTree) (cback : Nat) : PTree :=
  if pt = .nil then .meta cback tree
  else .alts (.meta cback tree) pt

/-- `Cmds.Add`: scan and parse the syntax; on success register the tree.
The result is the new accumulated parse tree. -/
def Add (pt : PTree) (cmd : String) (cback : Nat) : Except (List String) PTree :=
  match scanAndParse cmd with
  | .error e => .error e
  | .ok t => .ok (addParseTree pt t cback)

/-- The state computed by a successful VM run (`default` is never used in
 the theorems below, which pair this with an explicit success equation). -/
def resVm (r : Res VmState) : VmState :=
  match r with
  | .ok st => st
  | _ => default

/-- The parse tree of the syntax `(a? | b?) c`, whose program reaches pc 6
along two distinct epsilon paths in the same generation. -/
def dupTree : PTree :=
  .terms (.alts (.rep .zeroOrOne (.word "a")) (.rep .zeroOrOne (.word "b"))) (.word "c")

/-- The compiled program of `dupTree`. -/
def dupProg : Array Instr := (compile dupTree).getD #[]

/-- The final VM state of running `dupProg` on the input word `c`. -/
def dupSt : VmState := resVm (executeFuel 200 dupProg ["c"])

/-- A thread positioned at the convergence point pc 6 of `dupProg`. -/
def dupThread : Thread := ⟨6, [], none⟩

/-- The program compiled from `meta(cb, word "show")`: META, CMP show,
MATCH. -/
def showProg : Array Instr :=
  #[{ opcode := .opMeta, intf := some 0 }, { opcode := .opCmp, strs0 := "show" },
    { opcode := .opMatch }]

/-- The CMP instruction of `showProg`. -/
def cmpShow : Instr := { opcode := .opCmp, strs0 := "show" }

/-- The final VM state of running `showProg` on the scanned input `show`. -/
def showSt : VmState := resVm (executeFuel 50 showProg (cmdScanWords "show"))

/-- Scanner state for the two specification-side machines used by C8:
whether we are inside a quoted region, the current word buffer and the
words emitted so far. -/
structure SpecScanSt where
  quoted : Bool
  buf : String
  words : List String
deriving DecidableEq, Repr

/-- One rune step of the scanner exactly as the claim words it: ANY `"`
encountered outside a quoted region opens one; inside a region every rune
up to the closing `"` joins a single word (both quotes excluded, the word
ending at the closing quote); otherwise maximal runs of non-whitespace
runes form words.  This is the claim-side reference definition, written
from the claim's words and not from the source. -/
def claimScanStep (st : SpecScanSt) (r : Char) : SpecScanSt :=
  if st.quoted then
    if r = '"' then { quoted := false, buf := "", words := st.words ++ [st.buf] }
    else { st with buf := st.buf.push r }
  else
    if r = '"' then { st with quoted := true }
    else if goIsSpace r then
      (if st.buf ≠ "" then { st with buf := "", words := st.words ++ [st.buf] } else st)
    else { st with buf := st.buf.push r }

/-- The scanner described by the claim, run over a whole input. -/
def claimScanWords (cmd : String) : List String :=
  let st := cmd.data.foldl claimScanStep ⟨false, "", []⟩
  if st.buf ≠ "" then st.words ++ [st.buf] else st.words

/-- One rune step of the amended description: a `"` opens a quoted region
only at a word boundary (the buffer is empty); inside a word it is an
ordinary rune. -/
def amendedScanStep (st : SpecScanSt) (r : Char) : SpecScanSt :=
  if st.quoted then
    if r = '"' then { quoted := false, buf := "", words := st.words ++ [st.buf] }
    else { st with buf := st.buf.push r }
  else
    if goIsSpace r then
      (if st.buf ≠ "" then { st with buf := "", words := st.words ++ [st.buf] } else st)
    else if r = '"' ∧ st.buf = "" then { st with quoted := true }
    else { st with buf := st.buf.push r }

/-- The amended scanner, run over a whole input. -/
def amendedScanWords (cmd : String) : List String :=
  let st := cmd.data.foldl amendedScanStep ⟨false, "", []⟩
  if st.buf ≠ "" then st.words ++ [st.buf] else st.words

/-- The simulation relation between the three-state machine of
`cmdScanner.innerTokenize` and the amended two-mode description: the
Default state is exactly (not quoted, empty buffer), InWord is (not
quoted, non-empty buffer), and WaitingForTerminator is the quoted mode
with terminator `"`. -/
def ScanRel (c : CmdScanSt) (a : SpecScanSt) : Prop :=
  c.words = a.words ∧ c.word = a.buf ∧
    (match c.mode with
     | .dflt => a.quoted = false ∧ c.word = ""
     | .inWord => a.quoted = false ∧ c.word ≠ ""
     | .waitingForTerminator => a.quoted = true ∧ c.terminator = '"')

/-- A fresh thread positioned at `pc`. -/
def mkT (pc : Nat) : Thread := ⟨pc, [], none⟩

/-- The parse tree of the registrable syntax `(a*)*`. -/
def loopTree : PTree := .rep .zeroOrMore (.rep .zeroOrMore (.word "a"))

/-- The program compiled from `loopTree`:
`0: SPLIT(1,5); 1: SPLIT(2,4); 2: CMP a; 3: JMP 1; 4: JMP 0; 5: MATCH`. -/
def loopProg : Array Instr :=
  #[{ opcode := .opSplit, ints0 := 1, ints1 := 5 },
    { opcode := .opSplit, ints0 := 2, ints1 := 4 },
    { opcode := .opCmp, strs0 := "a" },
    { opcode := .opJmp, ints0 := 1 },
    { opcode := .opJmp, ints0 := 0 },
    { opcode := .opMatch }]

/-- The five shapes through which the unprocessed suffix of the thread
list cycles when `loopProg` runs a nil-word pass: because `addThread`
never stamps the generation, the JMP back to pc 0 re-appends a fresh
thread every time round. -/
def cycleSuffix : Nat → List Thread
  | 0 => [mkT 0]
  | 1 => [mkT 1, mkT 5]
  | 2 => [mkT 5, mkT 2, mkT 4]
  | 3 => [mkT 2, mkT 4]
  | _ => [mkT 4]

/-- Trees covered by the claim's count table: no nil node anywhere and
every repetition carries one of the three operators. -/
def wf : PTree → Bool
  | .nil => false
  | .word _ => true
  | .variab _ _ => true
  | .alts l r => wf l && wf r
  | .terms l r => wf l && wf r
  | .rep op t => (op ≠ .unset) && wf t
  | .meta _ ch => wf ch

/-- The claim's per-node instruction count: Word 1, Variable 1,
Alts 2+n(L)+n(R), Terms n(L)+n(R), Rep* 2+n(T), Rep+ 1+n(T), Rep? 1+n(T),
Meta 1+n(T).  (The nil and unset-op values are irrelevant under `wf`.) -/
def cnt : PTree → Nat
  | .nil => 0
  | .word _ => 1
  | .variab _ _ => 1
  | .alts l r => 2 + cnt l + cnt r
  | .terms l r => cnt l + cnt r
  | .rep op t =>
    match op with
    | .zeroOrMore => 2 + cnt t
    | .oneOrMore => 1 + cnt t
    | .zeroOrOne => 1 + cnt t
    | .unset => 0
  | .meta _ ch => 1 + cnt ch

@[simp]
theorem Res.andThen_ok {α β : Type} (a : α) (f : α → Res β) :
    Res.andThen (Res.ok a) f = f a := rfl

@[simp]
theorem Res.andThen_panic {α β : Type} (m : String) (f : α → Res β) :
    Res.andThen (Res.panic m) f = Res.panic m := rfl

@[simp]
theorem Res.andThen_fuelOut {α β : Type} (f : α → Res β) :
    Res.andThen (Res.fuelOut : Res α) f = Res.fuelOut := rfl

theorem Res.andThen_eq_ok {α β : Type} {r : Res α} {f : α → Res β} {b : β}
    (h : Res.andThen r f = Res.ok b) : ∃ a, r = Res.ok a ∧ f a = Res.ok b := by
  cases r with
  | ok a => exact ⟨a, rfl, h⟩
  | panic m => simp at h
  | fuelOut => simp at h

/-- **C1** (the code violates the claim): `addThread` checks
`program[t.pc].gen` but never writes it, so the second `addThread` call for
the same (pc, generation) pair appends a duplicate thread instead of being
a no-op, and a whole `execute` run leaves every instruction's `gen` field
untouched.  Running the program of `(a? | b?) c` on the single input word
`c` puts two pc-6 threads on the current list in generation 2 and ends
with two identical recorded matches. -/
theorem addThread_never_stamps_gen :
    (pParse (Scan "(a? | b?) c").1).2 = dupTree
    ∧ compile dupTree = some dupProg
    ∧ addThread ⟨dupProg, ["c"], [], [], [], 2⟩ [dupThread] dupThread
        = Res.ok [dupThread, dupThread]
    ∧ executeFuel 200 dupProg ["c"] = Res.ok dupSt
    ∧ dupSt.prog = dupProg
    ∧ dupSt.matches' =
        [⟨[.keywordValue "c" "c"], none⟩, ⟨[.keywordValue "c" "c"], none⟩] := by
  refine ⟨by decide, by decide, by decide, by decide, by decide, by decide⟩

/-- **C7** counterexample: parsing the DSL input `*` consumes no token
(the final cursor is 0), yet the recorded diagnostic says `At character 2`,
not `At character 1` as the claim requires when no token has been
consumed. -/
theorem parse_star_diag_counterexample :
    (pParse (Scan "*").1).1.errors = ["At character 2: extra tokens after end of command"]
    ∧ (pParse (Scan "*").1).1.current = 0
    ∧ "At character 2: extra tokens after end of command"
        ≠ "At character 1: extra tokens after end of command" := by
  refine ⟨by decide, by decide, by decide⟩

/-- **C7** amended: every parser diagnostic is prefixed with
`At character K:` where K is the 1-based rune position immediately
following the last consumed token (its start offset plus its length plus
one), or K is 2 when no token has been consumed. -/
theorem addErrorAtPosition_K (st : PState) (msg : String) :
    (addErrorAtPosition st msg).errors = st.errors ++
      ["At character " ++
        toString (if st.current = 0 then 2 else (pPrevious st).pos + (pPrevious st).len + 1)
        ++ ": " ++ msg] := by
  unfold addErrorAtPosition runePosition
  by_cases h : st.current = 0 <;> simp [h]

/-- **C9**: `Add` on an empty or all-whitespace syntax string succeeds and
registers `meta(callback, nil)`; compiling that tree hits the unknown-node
default branch of `countinstr` on the nil child and panics. -/
theorem add_empty_syntax_then_compile_panics :
    Add .nil "" 7 = Except.ok (.meta 7 .nil)
    ∧ Add .nil "   " 7 = Except.ok (.meta 7 .nil)
    ∧ countinstr (.meta 7 .nil) = none
    ∧ compile (.meta 7 .nil) = none := by
  refine ⟨by rfl, by rfl, by decide, by decide⟩

/-- **C10**: the user-input scanner turns `""` into a single empty-string
word; the empty string is a prefix of every keyword, so `Parse` on the
input `""` against the compiled single-keyword command `show` returns true
and the callback receives a keyword item whose value is the empty
string. -/
theorem empty_quoted_word_parses :
    cmdScanWords "\"\"" = [""]
    ∧ (∀ kw : String, goStartsWith kw "" = true)
    ∧ compile (.meta 0 (.word "show")) = some showProg
    ∧ parseFuel 50 showProg "\"\"" =
        Res.ok (true, [(0, ⟨[.keywordValue "show" ""], some 0⟩)]) := by
  refine ⟨by decide, fun kw => by simp [goStartsWith, List.isPrefixOf], by decide, by decide⟩

theorem maxFrom_cons (m : Nat) (x : MMatch) (ms : List MMatch) :
    maxFrom m (x :: ms) = maxFrom (max m x.items.length) ms := rfl

theorem le_maxFrom (ms : List MMatch) : ∀ m : Nat, m ≤ maxFrom m ms := by
  induction ms with
  | nil => intro m; exact Nat.le_refl m
  | cons x rest ih =>
    intro m
    rw [maxFrom_cons]
    exact Nat.le_trans (Nat.le_max_left _ _) (ih _)

theorem longestStep_snd (cm : Nat × Nat) (m : MMatch) :
    (longestStep cm m).2 = max cm.2 m.items.length := by
  unfold longestStep
  rcases Nat.lt_trichotomy cm.2 m.items.length with h | h | h
  · simp [h, Nat.max_eq_right (Nat.le_of_lt h)]
  · simp [h.symm, Nat.lt_irrefl]
  · have h1 : ¬ m.items.length > cm.2 := Nat.not_lt.mpr (Nat.le_of_lt h)
    have h2 : ¬ m.items.length = cm.2 := Nat.ne_of_lt h
    simp [h1, h2, Nat.max_eq_left (Nat.le_of_lt h)]

theorem longestCount_snd_general (ms : List MMatch) :
    ∀ cm : Nat × Nat, (ms.foldl longestStep cm).2 = maxFrom cm.2 ms := by
  induction ms with
  | nil => intro cm; rfl
  | cons x rest ih =>
    intro cm
    rw [List.foldl_cons, maxFrom_cons, ih, longestStep_snd]

/-- The `mlen` computed by the first loop of `vm.longestMatches` is the
maximum binding-item count. -/
theorem longestCount_snd (ms : List MMatch) : (longestCount ms).2 = maxLen ms :=
  longestCount_snd_general ms (0, 0)

theorem longestCount_fst_general (ms : List MMatch) :
    ∀ cm : Nat × Nat, (ms.foldl longestStep cm).1 =
      (if maxFrom cm.2 ms = cm.2 then cm.1 else 0) +
        ms.countP (fun x => x.items.length = maxFrom cm.2 ms) := by
  induction ms with
  | nil => intro cm; simp [maxFrom]
  | cons x rest ih =>
    intro cm
    rw [List.foldl_cons, maxFrom_cons, List.countP_cons]
    rcases Nat.lt_trichotomy cm.2 x.items.length with h | h | h
    · have hmax : max cm.2 x.items.length = x.items.length := Nat.max_eq_right (Nat.le_of_lt h)
      have hstep : longestStep cm x = (1, x.items.length) := by
        unfold longestStep; simp [h]
      rw [hstep, ih, hmax]
      have hge : x.items.length ≤ maxFrom x.items.length rest := le_maxFrom rest _
      have hne : maxFrom x.items.length rest ≠ cm.2 :=
        Nat.ne_of_gt (Nat.lt_of_lt_of_le h hge)
      by_cases he : maxFrom x.items.length rest = x.items.length
      · simp [he, hne, Nat.add_comm]
        exact fun hx => absurd hx (Nat.ne_of_gt h)
      · have : ¬ x.items.length = maxFrom x.items.length rest := fun hx => he hx.symm
        simp [he, hne, this]
    · have hmax : max cm.2 x.items.length = cm.2 := by rw [h]; exact Nat.max_self _
      have hstep : longestStep cm x = (cm.1 + 1, cm.2) := by
        unfold longestStep; simp [h, Nat.lt_irrefl]
      rw [hstep, ih, hmax]
      by_cases he : maxFrom cm.2 rest = cm.2
      · have : x.items.length = maxFrom cm.2 rest := by rw [he, h]
        simp [he, this, Nat.add_comm, Nat.add_assoc, Nat.add_left_comm]
      · have hge : cm.2 ≤ maxFrom cm.2 rest := le_maxFrom rest _
        have : ¬ x.items.length = maxFrom cm.2 rest := by
          rw [← h]; exact fun hx => he hx.symm
        simp [he, this]
    · have hmax : max cm.2 x.items.length = cm.2 := Nat.max_eq_left (Nat.le_of_lt h)
      have hstep : longestStep cm x = cm := by
        unfold longestStep
        have h1 : ¬ x.items.length > cm.2 := Nat.not_lt.mpr (Nat.le_of_lt h)
        have h2 : ¬ x.items.length = cm.2 := Nat.ne_of_lt h
        simp [h1, h2]
      rw [hstep, ih, hmax]
      have hge : cm.2 ≤ maxFrom cm.2 rest := le_maxFrom rest _
      have : ¬ x.items.length = maxFrom cm.2 rest :=
        Nat.ne_of_lt (Nat.lt_of_lt_of_le h hge)
      simp [this]

/-- The `count` computed by the first loop of `vm.longestMatches` equals
the number of matches achieving the maximum item count: the Go code's
pre-allocated destination array is filled exactly, so the in-order
accumulation used by `longestMatches` here is a faithful model of the
indexed fill loop. -/
theorem longestCount_fst (ms : List MMatch) :
    (longestCount ms).1 = (ms.filter (fun m => m.items.length = maxLen ms)).length := by
  have h := longestCount_fst_general ms (0, 0)
  rw [longestCount, h, List.countP_eq_length_filter]
  by_cases he : maxFrom 0 ms = 0 <;> simp [he, maxLen]

theorem foldl_longestFill (n : Nat) (ms : List MMatch) :
    ∀ acc : List MMatch, ms.foldl (longestFill n) acc
      = acc ++ ms.filter (fun m => m.items.length = n) := by
  induction ms with
  | nil => intro acc; simp
  | cons x rest ih =>
    intro acc
    rw [List.foldl_cons, List.filter_cons]
    by_cases h : x.items.length = n
    · simp only [longestFill, if_pos h, ih, h]
      simp
    · simp only [longestFill, if_neg h, ih]
      simp [h]

/-- **C4**: `longestMatches` returns exactly the recorded matches whose
binding-item count equals the maximum count, in insertion order, and
`maximalMatches` returns that list when the maximum count equals the
number of input words and the empty set otherwise. -/
theorem longest_maximal_spec (v : VmState) :
    longestMatches v = v.matches'.filter (fun m => m.items.length = maxLen v.matches')
    ∧ maximalMatches v =
        (if maxLen v.matches' = v.input.length then longestMatches v else []) := by
  have h1 : longestMatches v
      = v.matches'.filter (fun m => m.items.length = maxLen v.matches') := by
    unfold longestMatches
    rw [longestCount_snd, foldl_longestFill, List.nil_append]
  refine ⟨h1, ?_⟩
  unfold maximalMatches
  cases hf : longestMatches v with
  | nil =>
    simp only []
    by_cases hm : maxLen v.matches' = v.input.length <;> simp [hm, hf]
  | cons m0 rest =>
    have hm0 : m0.items.length = maxLen v.matches' := by
      have hmem : m0 ∈ longestMatches v := by rw [hf]; exact List.mem_cons_self _ _
      rw [h1] at hmem
      simpa using (List.mem_filter.mp hmem).2
    by_cases hm : maxLen v.matches' = v.input.length
    · have : ¬ m0.items.length ≠ v.input.length := by rw [hm0, hm]; simp
      simp [hf, this, hm]
    · have : m0.items.length ≠ v.input.length := by rw [hm0]; exact hm
      simp [hf, this, hm]

/-- **C5**: a thread at a CMP instruction binds the current word, advances
its pc by one and moves to the next-word thread list exactly when the word
is non-nil and the keyword has the word as a (case-sensitive) prefix;
otherwise the thread dies with its state unchanged.  The two hypotheses
say that the CMP is not the final instruction (the trailing MATCH
guarantees this in every compiled program) and that the generation check
inside `addThread` passes (the gen field is 0 on every compiled
instruction while the VM generation is at least 1). -/
theorem doCmp_spec (v : VmState) (t : Thread) (i : Instr) (w : Option String)
    (hlt : t.pc + 1 < v.prog.size)
    (hgen : (v.prog.get ⟨t.pc + 1, hlt⟩).gen ≠ v.gen) :
    doCmp v t i w =
      match w with
      | some word =>
        if goStartsWith i.strs0 word then
          Res.ok { v with next := v.next ++
            [{ t with items := t.items ++ [⟨i, word⟩], pc := t.pc + 1 }] }
        else Res.ok v
      | none => Res.ok v := by
  cases w with
  | none => rfl
  | some word =>
    by_cases hp : goStartsWith i.strs0 word
    · have hsz : ¬ v.prog.size = 0 := by omega
      have hfetch : v.prog[t.pc + 1]? = some (v.prog.get ⟨t.pc + 1, hlt⟩) :=
        Array.getElem?_eq_getElem hlt
      simp only [doCmp, hp, if_true, addThread, hsz, if_false, hfetch, hgen, ite_false]
      rfl
    · simp [doCmp, hp]

/-- Witness for `doCmp_spec` at a concrete matching input: the word `sh`
is a prefix of the keyword `show`, so the thread binds and moves on. -/
theorem doCmp_spec_witness :
    doCmp ⟨showProg, ["sh"], [], [], [], 2⟩ ⟨1, [], some 0⟩ cmpShow (some "sh")
      = Res.ok ⟨showProg, ["sh"], [], [⟨2, [⟨cmpShow, "sh"⟩], some 0⟩], [], 2⟩ := by
  have h := doCmp_spec ⟨showProg, ["sh"], [], [], [], 2⟩ ⟨1, [], some 0⟩
    cmpShow (some "sh") (by decide) (by decide)
  rw [h]
  decide

/-- **C3**: when the VM run behind `Cmds.Parse` completes (the fuel `h`
hypothesis) and every maximal match carries a callback payload (true for
every program built through `Cmds.Add`, which wraps each command in a meta
node), `Parse` returns true exactly when `maximalMatches` has exactly one
element, invoking that match's payload once with that match; otherwise it
returns false and invokes nothing. -/
theorem Parse_iff (fuel : Nat) (p : Array Instr) (cmd : String) (st : VmState)
    (h : executeFuel fuel p (cmdScanWords cmd) = Res.ok st)
    (hm : ∀ m ∈ maximalMatches st, m.meta.isSome) :
    ((maximalMatches st).length = 1 →
      ∃ m cb, maximalMatches st = [m] ∧ m.meta = some cb ∧
        parseFuel fuel p cmd = Res.ok (true, [(cb, m)]))
    ∧ ((maximalMatches st).length ≠ 1 → parseFuel fuel p cmd = Res.ok (false, [])) := by
  constructor
  · intro hlen
    match hmm : maximalMatches st with
    | [] => rw [hmm] at hlen; simp at hlen
    | m :: rest =>
      have hrest : rest = [] := by
        rw [hmm] at hlen
        simpa using hlen
      subst hrest
      have hsome := hm m (by rw [hmm]; exact List.mem_cons_self _ _)
      obtain ⟨cb, hcb⟩ := Option.isSome_iff_exists.mp hsome
      refine ⟨m, cb, rfl, hcb, ?_⟩
      simp [parseFuel, h, Res.andThen, hmm, hcb]
  · intro hlen
    simp [parseFuel, h, Res.andThen, hlen]

/-- Witness for `Parse_iff`: the single-keyword program accepts `show`,
returning true and invoking callback 0 once. -/
theorem Parse_iff_witness :
    (maximalMatches showSt).length = 1 ∧
    ∃ m cb, maximalMatches showSt = [m] ∧ m.meta = some cb ∧
      parseFuel 50 showProg "show" = Res.ok (true, [(cb, m)]) := by
  have h : executeFuel 50 showProg (cmdScanWords "show") = Res.ok showSt := by decide
  have hm : ∀ m ∈ maximalMatches showSt, m.meta.isSome := by decide
  exact ⟨by decide, (Parse_iff 50 showProg "show" showSt h hm).1 (by decide)⟩

/-- **C8** counterexample: on the input `a"b c` the code keeps the quote
inside the word (a quote is special only at a word boundary) and splits at
the space, while the scanner described by the claim opens a quoted region
at the mid-word quote and preserves the space inside one word. -/
theorem quote_in_word_counterexample :
    cmdScanWords "a\"b c" = ["a\"b", "c"]
    ∧ claimScanWords "a\"b c" = ["ab c"]
    ∧ cmdScanWords "a\"b c" ≠ claimScanWords "a\"b c" := by
  refine ⟨by decide, by decide, by decide⟩

theorem String.push_ne_empty (s : String) (c : Char) : s.push c ≠ "" := by
  intro h
  have := congrArg String.data h
  simp [String.push] at this

theorem scanRel_step (c : CmdScanSt) (a : SpecScanSt) (r : Char) (h : ScanRel c a) :
    ScanRel (cmdScanStep c r) (amendedScanStep a r) := by
  obtain ⟨hw, hb, hm⟩ := h
  cases hmode : c.mode with
  | dflt =>
    rw [hmode] at hm
    obtain ⟨hq, he⟩ := hm
    by_cases hs : goIsSpace r = true
    · have hnq : r ≠ '"' := by
        intro hr
        rw [hr] at hs
        exact absurd hs (by decide)
      refine ⟨?_, ?_, ?_⟩ <;>
        simp [cmdScanStep, amendedScanStep, hmode, hq, hs, he, ← hb, hw]
    · have hqs : goIsSpace '"' = false := by decide
      by_cases hr : r = '"'
      · refine ⟨?_, ?_, ?_⟩ <;>
          simp [cmdScanStep, amendedScanStep, hmode, hq, hs, hr, he, ← hb, hw, hqs]
      · refine ⟨?_, ?_, ?_⟩ <;>
          simp [cmdScanStep, amendedScanStep, hmode, hq, hs, hr, he, ← hb, hw,
            String.push_ne_empty]
  | inWord =>
    rw [hmode] at hm
    obtain ⟨hq, he⟩ := hm
    by_cases hs : goIsSpace r = true
    · refine ⟨?_, ?_, ?_⟩ <;>
        simp [cmdScanStep, amendedScanStep, hmode, hq, hs, he, ← hb, hw]
    · have hcond : ¬ (r = '"' ∧ c.word = "") := fun hx => he hx.2
      refine ⟨?_, ?_, ?_⟩ <;>
        simp [cmdScanStep, amendedScanStep, hmode, hq, hs, hcond, ← hb, hw,
          String.push_ne_empty]
  | waitingForTerminator =>
    rw [hmode] at hm
    obtain ⟨hq, hterm⟩ := hm
    by_cases hr : r = '"'
    · refine ⟨?_, ?_, ?_⟩ <;>
        simp [cmdScanStep, amendedScanStep, hmode, hq, hterm, hr, ← hb, hw]
    · refine ⟨?_, ?_, ?_⟩ <;>
        simp [cmdScanStep, amendedScanStep, hmode, hq, hterm, hr, ← hb, hw]

theorem scanRel_fold (rs : List Char) :
    ∀ (c : CmdScanSt) (a : SpecScanSt), ScanRel c a →
      ScanRel (rs.foldl cmdScanStep c) (rs.foldl amendedScanStep a) := by
  induction rs with
  | nil => intro c a h; exact h
  | cons r rest ih =>
    intro c a h
    exact ih _ _ (scanRel_step c a r h)

/-- **C8** amended: the user-input scanner behaves exactly like the claim's
description once the quote rule is restricted to word boundaries: a `"`
at the start of a word opens a quoted region whose runes (whitespace
preserved, quotes excluded) form a single word; a `"` inside a word is an
ordinary character; outside quoted regions maximal runs of non-whitespace
characters form words. -/
theorem cmdScan_eq_amended (s : String) : cmdScanWords s = amendedScanWords s := by
  have h0 : ScanRel ⟨.dflt, Char.ofNat 0, "", []⟩ ⟨false, "", []⟩ := by
    refine ⟨rfl, rfl, rfl, rfl⟩
  have h := scanRel_fold s.data _ _ h0
  obtain ⟨hw, hb, _⟩ := h
  simp only [cmdScanWords, amendedScanWords]
  rw [hw, hb]

theorem runThreadsFuel_succ (n : Nat) (v : VmState) (w : Option String) (i : Nat) :
    runThreadsFuel (n + 1) v w i =
      match v.current[i]? with
      | none => Res.ok v
      | some t => Res.andThen (continu v w t) fun v2 => runThreadsFuel n v2 w (i + 1) := rfl

/-- The index loop of `processWord` on `loopProg` with a nil word never
reaches the end of the (growing) thread list: every fuel bound is
exhausted. -/
theorem loopProg_cycle (fuel : Nat) :
    ∀ (k : Nat), k < 5 → ∀ (pre : List Thread) (ms : List MMatch),
      runThreadsFuel fuel ⟨loopProg, [], pre ++ cycleSuffix k, [], ms, 2⟩ none pre.length
        = Res.fuelOut := by
  induction fuel with
  | zero => intro k hk pre ms; rfl
  | succ n ih =>
    intro k hk pre ms
    have hhead : ∀ (t : Thread) (l pre' : List Thread),
        (pre' ++ (t :: l))[pre'.length]? = some t := by
      intro t l pre'
      rw [List.getElem?_append_right (Nat.le_refl _)]
      simp
    have hsz : ¬ (loopProg.size = 0) := by decide
    interval_cases k
    · -- suffix [pc0]: SPLIT(1,5) appends pc1 and pc5
      rw [show cycleSuffix 0 = [mkT 0] from rfl, runThreadsFuel_succ]
      simp only [hhead, continu, mkT, doSplit, addThread, hsz, Res.andThen_ok]
      simp only [show loopProg[(0:Nat)]? = some { opcode := .opSplit, ints0 := 1, ints1 := 5 }
        from rfl, show loopProg[(1:Nat)]? = some { opcode := .opSplit, ints0 := 2, ints1 := 4 }
        from rfl, show loopProg[(5:Nat)]? = some { opcode := .opMatch } from rfl]
      simpa [cycleSuffix, mkT, List.append_assoc] using ih 1 (by omega) (pre ++ [mkT 0]) ms
    · -- suffix [pc1, pc5]: SPLIT(2,4) appends pc2 and pc4
      rw [show cycleSuffix 1 = [mkT 1, mkT 5] from rfl, runThreadsFuel_succ]
      simp only [hhead, continu, mkT, doSplit, addThread, hsz, Res.andThen_ok]
      simp only [show loopProg[(1:Nat)]? = some { opcode := .opSplit, ints0 := 2, ints1 := 4 }
        from rfl, show loopProg[(2:Nat)]? = some { opcode := .opCmp, strs0 := "a" } from rfl,
        show loopProg[(4:Nat)]? = some { opcode := .opJmp, ints0 := 0 } from rfl]
      simpa [cycleSuffix, mkT, List.append_assoc] using ih 2 (by omega) (pre ++ [mkT 1]) ms
    · -- suffix [pc5, pc2, pc4]: MATCH records a match
      rw [show cycleSuffix 2 = [mkT 5, mkT 2, mkT 4] from rfl, runThreadsFuel_succ]
      simp only [hhead, continu, mkT, addMatch, matchItems, Res.andThen_ok]
      simp only [show loopProg[(5:Nat)]? = some { opcode := .opMatch } from rfl]
      simpa [cycleSuffix, mkT, List.append_assoc]
        using ih 3 (by omega) (pre ++ [mkT 5]) (ms ++ [⟨[], none⟩])
    · -- suffix [pc2, pc4]: CMP with nil word dies
      rw [show cycleSuffix 3 = [mkT 2, mkT 4] from rfl, runThreadsFuel_succ]
      simp only [hhead, continu, mkT, doCmp, Res.andThen_ok]
      simp only [show loopProg[(2:Nat)]? = some { opcode := .opCmp, strs0 := "a" } from rfl]
      simpa [cycleSuffix, mkT, List.append_assoc] using ih 4 (by omega) (pre ++ [mkT 2]) ms
    · -- suffix [pc4]: JMP 0 re-appends pc0, closing the cycle
      rw [show cycleSuffix 4 = [mkT 4] from rfl, runThreadsFuel_succ]
      simp only [hhead, continu, mkT, doJmp, addThread, hsz, Res.andThen_ok]
      simp only [show loopProg[(4:Nat)]? = some { opcode := .opJmp, ints0 := 0 } from rfl,
        show loopProg[(0:Nat)]? = some { opcode := .opSplit, ints0 := 1, ints1 := 5 } from rfl]
      simpa [cycleSuffix, mkT, List.append_assoc] using ih 0 (by omega) (pre ++ [mkT 4]) ms

/-- **C2** (the code violates the claim): on the program compiled from the
registrable syntax `(a*)*` and the empty input, `vm.execute` does not
terminate: the missing generation stamping lets the epsilon cycle
re-append threads forever, so every fuel bound is exhausted (and the
thread list grows without bound instead of holding at most |P| threads). -/
theorem execute_diverges_on_nested_star :
    (pParse (Scan "(a*)*").1).2 = loopTree
    ∧ compile loopTree = some loopProg
    ∧ ∀ fuel : Nat, executeFuel fuel loopProg [] = Res.fuelOut := by
  refine ⟨by decide, by decide, ?_⟩
  intro fuel
  have h : runThreadsFuel fuel ⟨loopProg, [], [mkT 0], [], [], 2⟩ none 0 = Res.fuelOut := by
    simpa [cycleSuffix] using loopProg_cycle fuel 0 (by omega) [] []
  have hstart : executeFuel fuel loopProg [] =
      Res.andThen
        (Res.andThen (runThreadsFuel fuel ⟨loopProg, [], [mkT 0], [], [], 2⟩ none 0)
          (fun v2 => Res.ok { v2 with current := v2.next, next := [] }))
        (fun v2 => processWordFuel fuel v2 none) := rfl
  rw [hstart, h]
  rfl

/-- On well-formed trees `countinstr` succeeds and computes the claim's
table. -/
theorem countinstr_wf (t : PTree) (h : wf t = true) : countinstr t = some (cnt t) := by
  induction t with
  | nil => simp [wf] at h
  | word s => rfl
  | variab n ty => rfl
  | alts l r ihl ihr =>
    simp [wf, Bool.and_eq_true] at h
    simp [countinstr, cnt, ihl h.1, ihr h.2]
  | terms l r ihl ihr =>
    simp [wf, Bool.and_eq_true] at h
    simp [countinstr, cnt, ihl h.1, ihr h.2]
  | rep op t iht =>
    simp [wf, Bool.and_eq_true] at h
    cases op with
    | unset => exact absurd rfl h.1
    | zeroOrMore => simp [countinstr, cnt, iht h.2]
    | oneOrMore => simp [countinstr, cnt, iht h.2]; omega
    | zeroOrOne => simp [countinstr, cnt, iht h.2]
  | meta d ch ih =>
    simp [wf] at h
    simp [countinstr, cnt, ih h]

theorem setAt_spec (a : Array Instr) (i : Nat) (f : Instr → Instr) (h : i < a.size) :
    ∃ a2, setAt a i f = some a2 ∧ a2.size = a.size ∧
      a2[i]? = some (f (a.get ⟨i, h⟩)) ∧ ∀ j, j ≠ i → a2[j]? = a[j]? := by
  refine ⟨a.set ⟨i, h⟩ (f (a.get ⟨i, h⟩)), by simp [setAt, h], by simp, ?_, ?_⟩
  · exact Array.get?_set_eq a ⟨i, h⟩ _
  · intro j hj
    exact Array.getElem?_set_ne a ⟨i, h⟩ _ (fun he => hj he.symm)

/-- `Instr.get` value determined by a `getElem?` fact. -/
theorem get_of_getElem? {a : Array Instr} {j : Nat} (h : j < a.size) {x : Instr}
    (hx : a[j]? = some x) : a.get ⟨j, h⟩ = x := by
  rw [Array.getElem?_eq_getElem h] at hx
  exact Option.some.inj hx

/-- The behaviour of one `emit` pass: starting with enough room, it
succeeds, advances the cursor by exactly `cnt t`, preserves the array size
and every cell outside `[c.pc, c.pc + cnt t)`, and writes no MATCH opcode
inside that range. -/
theorem emit_spec (t : PTree) (hwf : wf t = true) :
    ∀ c : CompSt, c.pc + cnt t ≤ c.instr.size →
    ∃ c2, emit t c = some c2 ∧ c2.pc = c.pc + cnt t ∧ c2.instr.size = c.instr.size ∧
      (∀ j, (j < c.pc ∨ c.pc + cnt t ≤ j) → c2.instr[j]? = c.instr[j]?) ∧
      (∀ j i2, c.pc ≤ j → j < c.pc + cnt t → c2.instr[j]? = some i2 →
        i2.opcode ≠ .opMatch) := by
  induction t with
  | nil => simp [wf] at hwf
  | word s =>
    intro c hle
    simp only [cnt] at hle ⊢
    have hlt : c.pc < c.instr.size := by omega
    obtain ⟨a2, hset, hsz, hval, hfr⟩ := setAt_spec c.instr c.pc
      (fun i => { i with opcode := .opCmp, strs0 := s }) hlt
    refine ⟨⟨a2, c.pc + 1⟩, by simp [emit, hset], rfl, hsz, ?_, ?_⟩
    · intro j hj
      exact hfr j (by omega)
    · intro j i2 h1 h2 hj
      have hje : j = c.pc := by omega
      subst hje
      rw [hval] at hj
      have hi2 := Option.some.inj hj
      subst hi2
      simp
  | variab nm ty =>
    intro c hle
    simp only [cnt] at hle ⊢
    have hlt : c.pc < c.instr.size := by omega
    obtain ⟨a2, hset, hsz, hval, hfr⟩ := setAt_spec c.instr c.pc
      (fun i => { i with opcode := .opSave, strs0 := nm, strs1 := ty }) hlt
    refine ⟨⟨a2, c.pc + 1⟩, by simp [emit, hset], rfl, hsz, ?_, ?_⟩
    · intro j hj
      exact hfr j (by omega)
    · intro j i2 h1 h2 hj
      have hje : j = c.pc := by omega
      subst hje
      rw [hval] at hj
      have hi2 := Option.some.inj hj
      subst hi2
      simp
  | terms l r ihl ihr =>
    intro c hle
    simp only [wf, Bool.and_eq_true] at hwf
    simp only [cnt] at hle ⊢
    obtain ⟨c1, he1, hpc1, hsz1, hfr1, hop1⟩ := ihl hwf.1 c (by omega)
    obtain ⟨c2, he2, hpc2, hsz2, hfr2, hop2⟩ := ihr hwf.2 c1 (by rw [hpc1, hsz1]; omega)
    refine ⟨c2, by simp [emit, he1, he2], by rw [hpc2, hpc1]; omega,
      by rw [hsz2, hsz1], ?_, ?_⟩
    · intro j hj
      rw [hfr2 j (by omega), hfr1 j (by omega)]
    · intro j i2 h1 h2 hj
      by_cases hjl : j < c.pc + cnt l
      · have hpres : c2.instr[j]? = c1.instr[j]? := hfr2 j (by omega)
        exact hop1 j i2 h1 hjl (by rw [← hpres]; exact hj)
      · exact hop2 j i2 (by omega) (by omega) hj
  | meta d ch ih =>
    intro c hle
    simp only [wf] at hwf
    simp only [cnt] at hle ⊢
    have hlt : c.pc < c.instr.size := by omega
    obtain ⟨a1, hset, hsza, hval, hfra⟩ := setAt_spec c.instr c.pc
      (fun i => { i with opcode := .opMeta, intf := some d }) hlt
    obtain ⟨c2, he2, hpc2, hsz2, hfr2, hop2⟩ := ih hwf ⟨a1, c.pc + 1⟩
      (by dsimp only; rw [hsza]; omega)
    dsimp only at hpc2 hsz2 hfr2 hop2
    refine ⟨c2, by simp [emit, hset, he2], by omega, by rw [hsz2]; exact hsza, ?_, ?_⟩
    · intro j hj
      rw [hfr2 j (by omega), hfra j (by omega)]
    · intro j i2 h1 h2 hj
      by_cases hje : j = c.pc
      · subst hje
        rw [hfr2 c.pc (by omega), hval] at hj
        have hi2 := Option.some.inj hj
        subst hi2
        simp
      · exact hop2 j i2 (by omega) (by omega) hj
  | alts l r ihl ihr =>
    intro c hle
    simp only [wf, Bool.and_eq_true] at hwf
    simp only [cnt] at hle ⊢
    have hlt0 : c.pc < c.instr.size := by omega
    obtain ⟨a1, hset1, hsz1, hval1, hfr1⟩ := setAt_spec c.instr c.pc
      (fun i => { i with opcode := .opSplit, ints0 := c.pc + 1 }) hlt0
    obtain ⟨c1, he1, hpc1, hszc1, hfrc1, hopc1⟩ := ihl hwf.1 ⟨a1, c.pc + 1⟩
      (by dsimp only; rw [hsz1]; omega)
    dsimp only at hpc1 hszc1 hfrc1 hopc1
    have hlt1 : c1.pc < c1.instr.size := by rw [hpc1, hszc1, hsz1]; omega
    obtain ⟨a2, hset2, hsz2, hval2, hfr2⟩ := setAt_spec c1.instr c1.pc
      (fun i => { i with opcode := .opJmp }) hlt1
    have hlt2 : c.pc < a2.size := by rw [hsz2, hszc1, hsz1]; omega
    obtain ⟨a3, hset3, hsz3, hval3, hfr3⟩ := setAt_spec a2 c.pc
      (fun i => { i with ints1 := c1.pc + 1 }) hlt2
    obtain ⟨c3, he3, hpc3, hszc3, hfrc3, hopc3⟩ := ihr hwf.2 ⟨a3, c1.pc + 1⟩
      (by dsimp only; rw [hsz3, hsz2, hszc1, hsz1, hpc1]; omega)
    dsimp only at hpc3 hszc3 hfrc3 hopc3
    have hlt3 : c1.pc < c3.instr.size := by rw [hszc3, hsz3, hsz2, hszc1, hsz1, hpc1]; omega
    obtain ⟨a4, hset4, hsz4, hval4, hfr4⟩ := setAt_spec c3.instr c1.pc
      (fun i => { i with ints0 := c3.pc }) hlt3
    refine ⟨⟨a4, c3.pc⟩, ?_, ?_, ?_, ?_, ?_⟩
    · simp [emit, hset1, he1, hset2, hset3, he3, hset4]
    · dsimp only; rw [hpc3, hpc1]; omega
    · dsimp only; rw [hsz4, hszc3, hsz3, hsz2, hszc1, hsz1]
    · intro j hj
      dsimp only
      have hj0 : j ≠ c.pc := by omega
      have hjjmp : j ≠ c1.pc := by omega
      rw [hfr4 j hjjmp, hfrc3 j (by omega), hfr3 j hj0, hfr2 j hjjmp,
        hfrc1 j (by omega), hfr1 j hj0]
    · intro j i2 h1 h2 hj
      dsimp only at hj
      by_cases hjs : j = c.pc
      · -- the SPLIT cell: its opcode survives the two ints back-patches
        subst hjs
        have ha2v : a2[c.pc]? = some ((fun i =>
            { i with opcode := Opcode.opSplit, ints0 := c.pc + 1 })
              (c.instr.get ⟨c.pc, hlt0⟩)) := by
          rw [hfr2 c.pc (by omega), hfrc1 c.pc (by omega)]
          exact hval1
        rw [hfr4 c.pc (by omega), hfrc3 c.pc (by omega), hval3,
          get_of_getElem? hlt2 ha2v] at hj
        have hi2 := Option.some.inj hj
        subst hi2
        simp
      · by_cases hjl : j < c1.pc
        · -- inside the left child's range
          have hjw : c.pc + 1 ≤ j := by omega
          have hpres : a4[j]? = c1.instr[j]? := by
            rw [hfr4 j (by omega), hfrc3 j (by omega), hfr3 j hjs, hfr2 j (by omega)]
          exact hopc1 j i2 hjw (by omega) (by rw [← hpres]; exact hj)
        · by_cases hjj : j = c1.pc
          · -- the JMP cell: its opcode survives the target back-patch
            subst hjj
            have hc3v : c3.instr[c1.pc]? = some ((fun i =>
                { i with opcode := Opcode.opJmp }) (c1.instr.get ⟨c1.pc, hlt1⟩)) := by
              rw [hfrc3 c1.pc (by omega), hfr3 c1.pc (by omega)]
              exact hval2
            rw [hval4, get_of_getElem? hlt3 hc3v] at hj
            have hi2 := Option.some.inj hj
            subst hi2
            simp
          · -- inside the right child's range
            have hjw : c1.pc + 1 ≤ j := by omega
            have hpres : a4[j]? = c3.instr[j]? := hfr4 j hjj
            exact hopc3 j i2 hjw (by omega) (by rw [← hpres]; exact hj)
  | rep op t iht =>
    intro c hle
    simp only [wf, Bool.and_eq_true, decide_eq_true_eq] at hwf
    cases op with
    | unset => exact absurd rfl hwf.1
    | zeroOrMore =>
      simp only [cnt] at hle ⊢
      have hlt0 : c.pc < c.instr.size := by omega
      obtain ⟨a1, hset1, hsz1, hval1, hfr1⟩ := setAt_spec c.instr c.pc
        (fun i => { i with opcode := .opSplit, ints0 := c.pc + 1 }) hlt0
      obtain ⟨c1, he1, hpc1, hszc1, hfrc1, hopc1⟩ := iht hwf.2 ⟨a1, c.pc + 1⟩
        (by dsimp only; rw [hsz1]; omega)
      dsimp only at hpc1 hszc1 hfrc1 hopc1
      have hlt1 : c1.pc < c1.instr.size := by rw [hpc1, hszc1, hsz1]; omega
      obtain ⟨a2, hset2, hsz2, hval2, hfr2⟩ := setAt_spec c1.instr c1.pc
        (fun i => { i with opcode := .opJmp, ints0 := c.pc }) hlt1
      have hlt2 : c.pc < a2.size := by rw [hsz2, hszc1, hsz1]; omega
      obtain ⟨a3, hset3, hsz3, hval3, hfr3⟩ := setAt_spec a2 c.pc
        (fun i => { i with ints1 := c1.pc + 1 }) hlt2
      refine ⟨⟨a3, c1.pc + 1⟩, ?_, ?_, ?_, ?_, ?_⟩
      · simp [emit, hset1, he1, hset2, hset3]
      · dsimp only; omega
      · dsimp only; rw [hsz3, hsz2, hszc1, hsz1]
      · intro j hj
        dsimp only
        have hj0 : j ≠ c.pc := by omega
        have hjjmp : j ≠ c1.pc := by omega
        rw [hfr3 j hj0, hfr2 j hjjmp, hfrc1 j (by omega), hfr1 j hj0]
      · intro j i2 h1 h2 hj
        dsimp only at hj
        by_cases hjs : j = c.pc
        · subst hjs
          have ha2v : a2[c.pc]? = some ((fun i =>
              { i with opcode := Opcode.opSplit, ints0 := c.pc + 1 })
                (c.instr.get ⟨c.pc, hlt0⟩)) := by
            rw [hfr2 c.pc (by omega), hfrc1 c.pc (by omega)]
            exact hval1
          rw [hval3, get_of_getElem? hlt2 ha2v] at hj
          have hi2 := Option.some.inj hj
          subst hi2
          simp
        · by_cases hjj : j = c1.pc
          · subst hjj
            rw [hfr3 c1.pc (by omega), hval2] at hj
            have hi2 := Option.some.inj hj
            subst hi2
            simp
          · have hjw : c.pc + 1 ≤ j := by omega
            have hpres : a3[j]? = c1.instr[j]? := by
              rw [hfr3 j hjs, hfr2 j hjj]
            exact hopc1 j i2 hjw (by omega) (by rw [← hpres]; exact hj)
    | oneOrMore =>
      simp only [cnt] at hle ⊢
      obtain ⟨c1, he1, hpc1, hszc1, hfrc1, hopc1⟩ := iht hwf.2 c (by omega)
      have hlt1 : c1.pc < c1.instr.size := by rw [hpc1, hszc1]; omega
      obtain ⟨a2, hset2, hsz2, hval2, hfr2⟩ := setAt_spec c1.instr c1.pc
        (fun i => { i with opcode := .opSplit, ints0 := c.pc, ints1 := c1.pc + 1 }) hlt1
      refine ⟨⟨a2, c1.pc + 1⟩, ?_, ?_, ?_, ?_, ?_⟩
      · simp [emit, he1, hset2]
      · dsimp only; omega
      · dsimp only; rw [hsz2, hszc1]
      · intro j hj
        dsimp only
        rw [hfr2 j (by omega), hfrc1 j (by omega)]
      · intro j i2 h1 h2 hj
        dsimp only at hj
        by_cases hjj : j = c1.pc
        · subst hjj
          rw [hval2] at hj
          have hi2 := Option.some.inj hj
          subst hi2
          simp
        · have hpres : a2[j]? = c1.instr[j]? := hfr2 j hjj
          exact hopc1 j i2 h1 (by omega) (by rw [← hpres]; exact hj)
    | zeroOrOne =>
      simp only [cnt] at hle ⊢
      have hlt0 : c.pc < c.instr.size := by omega
      obtain ⟨a1, hset1, hsz1, hval1, hfr1⟩ := setAt_spec c.instr c.pc
        (fun i => { i with opcode := .opSplit, ints0 := c.pc + 1 }) hlt0
      obtain ⟨c1, he1, hpc1, hszc1, hfrc1, hopc1⟩ := iht hwf.2 ⟨a1, c.pc + 1⟩
        (by dsimp only; rw [hsz1]; omega)
      dsimp only at hpc1 hszc1 hfrc1 hopc1
      have hlt2 : c.pc < c1.instr.size := by rw [hszc1, hsz1]; omega
      obtain ⟨a2, hset2, hsz2, hval2, hfr2⟩ := setAt_spec c1.instr c.pc
        (fun i => { i with ints1 := c1.pc }) hlt2
      refine ⟨⟨a2, c1.pc⟩, ?_, ?_, ?_, ?_, ?_⟩
      · simp [emit, hset1, he1, hset2]
      · dsimp only; omega
      · dsimp only; rw [hsz2, hszc1, hsz1]
      · intro j hj
        dsimp only
        have hj0 : j ≠ c.pc := by omega
        rw [hfr2 j hj0, hfrc1 j (by omega), hfr1 j hj0]
      · intro j i2 h1 h2 hj
        dsimp only at hj
        by_cases hjs : j = c.pc
        · subst hjs
          have hc1v : c1.instr[c.pc]? = some ((fun i =>
              { i with opcode := Opcode.opSplit, ints0 := c.pc + 1 })
                (c.instr.get ⟨c.pc, hlt0⟩)) := by
            rw [hfrc1 c.pc (by omega)]
            exact hval1
          rw [hval2, get_of_getElem? hlt2 hc1v] at hj
          have hi2 := Option.some.inj hj
          subst hi2
          simp
        · have hjw : c.pc + 1 ≤ j := by omega
          have hpres : a2[j]? = c1.instr[j]? := hfr2 j hjs
          exact hopc1 j i2 hjw (by omega) (by rw [← hpres]; exact hj)

/-- **C6**: for every non-nil well-formed AST, `countinstr` computes
exactly the claim's per-node table `cnt`; the emit pass writes exactly
`cnt t` instructions (the cursor moves from 0 to `cnt t`); and `compile`
produces a program of exactly `cnt t + 1` instructions whose final
instruction is the single trailing MATCH (no earlier cell holds MATCH). -/
theorem compile_count (t : PTree) (h : wf t = true) :
    countinstr t = some (cnt t)
    ∧ (∃ c1, emit t ⟨Array.mkArray (cnt t + 1) {}, 0⟩ = some c1 ∧ c1.pc = cnt t)
    ∧ (∃ p, compile t = some p ∧ p.size = cnt t + 1
        ∧ p[cnt t]? = some { opcode := .opMatch }
        ∧ ∀ j i2, j < cnt t → p[j]? = some i2 → i2.opcode ≠ .opMatch) := by
  have hc := countinstr_wf t h
  have hnil : t ≠ .nil := by
    intro he
    subst he
    simp [wf] at h
  obtain ⟨c1, he1, hpc1, hsz1, hfr1, hop1⟩ := emit_spec t h ⟨Array.mkArray (cnt t + 1) {}, 0⟩
    (by simp)
  dsimp only at hpc1 hsz1 hfr1 hop1
  rw [Nat.zero_add] at hpc1
  refine ⟨hc, ⟨c1, he1, by omega⟩, ?_⟩
  have hlt : c1.pc < c1.instr.size := by rw [hpc1, hsz1]; simp
  obtain ⟨a2, hset2, hsz2, hval2, hfr2⟩ := setAt_spec c1.instr c1.pc
    (fun i => { i with opcode := .opMatch }) hlt
  refine ⟨a2, ?_, ?_, ?_, ?_⟩
  · simp [compile, hnil, hc, he1, emitMatch, hset2]
  · rw [hsz2, hsz1]; simp
  · rw [← hpc1, hval2]
    have hinit : c1.instr[c1.pc]? = some ({} : Instr) := by
      rw [hfr1 c1.pc (Or.inr (by omega))]
      have hb : c1.pc < cnt t + 1 := by omega
      simp [Array.getElem?_eq_getElem, hb]
    rw [get_of_getElem? hlt hinit]
  · intro j i2 hjlt hj
    have hpres : a2[j]? = c1.instr[j]? := hfr2 j (by omega)
    exact hop1 j i2 (by omega) (by omega) (by rw [← hpres]; exact hj)

/-- Witness for `compile_count` on the tree of `this | that`: count 4,
program of 5 instructions ending in the single MATCH. -/
theorem compile_count_witness :
    countinstr (.alts (.word "this") (.word "that"))
        = some (cnt (.alts (.word "this") (.word "that")))
    ∧ (∃ c1, emit (.alts (.word "this") (.word "that"))
          ⟨Array.mkArray (cnt (.alts (.word "this") (.word "that")) + 1) {}, 0⟩ = some c1
        ∧ c1.pc = cnt (.alts (.word "this") (.word "that")))
    ∧ (∃ p, compile (.alts (.word "this") (.word "that")) = some p
        ∧ p.size = cnt (.alts (.word "this") (.word "that")) + 1
        ∧ p[cnt (.alts (.word "this") (.word "that"))]? = some { opcode := .opMatch }
        ∧ ∀ j i2, j < cnt (.alts (.word "this") (.word "that")) → p[j]? = some i2 →
            i2.opcode ≠ .opMatch) :=
  compile_count (.alts (.word "this") (.word "that")) (by decide)

end Cmdparse
